import Mathlib

/-!
Verification of the segmented prime sieve engine.

This file gives a shallow embedding of the repository code and settles the
frozen claims against it.  The sources embedded here are:

* the multi-threaded engine (BasePrimes, WorkAllocator, worker) from the
  file optimized_multi_core_pi.cpp;
* the carried-cursor refactor (extend_base_primes, first_odd_multiple_ge,
  the segment strike loop with fast-forward) from
  optimized_segmented_sieve_refactor.cpp;
* sieve_segment and the popcount-based counting from primes_quad_core.cpp;
* SegmentedSieve::sieve_segment from generic_segmented_sieve.cpp;
* the segment-claim step of worker_thread from optimized_multi_core.cpp.

Machine integers are modelled as Nat; the only places where 32/64-bit
wraparound can actually occur in the embedded code keep an explicit
`% 2 ^ 32` or `% 2 ^ 64`.  Loops that walk an arithmetic progression of
indices are embedded as folds over `List.range' start count step`, where
`count` is the exact trip count of the source loop; the unrolled loop
variants in the source (4x, 8x, 16x blocks plus a remainder loop) visit the
same ascending index sequence as the plain loop, so they share the fold.
-/

/-- Number of iterations of the loop `while (j < bound) j += step`
(0 when `j >= bound`; the sources only run such loops with `step > 0`). -/
def loopCount (j bound step : Nat) : Nat := (bound - j + (step - 1)) / step

/-- Exit value of `j` after the loop `while (j < bound) j += step`. -/
def loopExit (j bound step : Nat) : Nat := j + step * loopCount j bound step

/-- The index list visited by the loop `while (j < bound) j += step`. -/
def loopIdxs (j bound step : Nat) : List Nat := List.range' j (loopCount j bound step) step

/-- Clearing one cell of a boolean mark array, `mark[j] = 0`. -/
def clearAt (m : Nat → Bool) (j : Nat) : Nat → Bool := fun x => if x = j then false else m x

/-- Setting the low bit, the expression `lo | 1` of the sources. -/
def orOne (n : Nat) : Nat := if n % 2 = 0 then n + 1 else n

/-! ## Trial-division reference

The specification fixes trial division as the reference classifier: a value
`n` is prime when `n >= 2` and no `d` with `2 <= d < n` divides it. -/

/-- Trial-division primality: the brute-force reference from the spec. -/
def trialDivisionIsPrime (n : Nat) : Bool :=
  decide (2 ≤ n) && (List.range n).all fun d => decide (d < 2) || decide (n % d ≠ 0)

/-- The list of all trial-division primes up to `n` inclusive, ascending. -/
def primesListTo (n : Nat) : List Nat := (List.range (n + 1)).filter trialDivisionIsPrime

/-! ## BasePrimes (optimized_multi_core_pi.cpp)

```
struct BasePrimes {
  vector<u32> primes; u32 sieved_to = 1; mutex mtx;
  void ensure(u32 new_need) {
    if (new_need <= sieved_to) return;            // (also re-checked under the lock)
    u32 target = max(new_need, sieved_to ? min(u32max, sieved_to * 2u) : new_need);
    vector<u8> mark(target + 1, 1);
    if (target >= 0) mark[0] = 0;  if (target >= 1) mark[1] = 0;
    for (u32 p : primes) { start = p*p; if (start > target) break;
                           for (j = start; j <= target; j += p) mark[j] = 0; }
    for (u32 i = 2; i*i <= target; ++i) { if (!mark[i]) continue;
                           for (j = i*i; j <= target; j += i) mark[j] = 0; }
    primes.clear(); for (i = 2; i <= target; ++i) if (mark[i]) primes.push_back(i);
    sieved_to = target; } };
```
The mutex serialises extensions; sequential state passing models it. -/

/-- State of the shared base-prime table. -/
structure BasePrimesSt where
  primes : List Nat
  sieved_to : Nat

/-- Initial table state: `primes = {}`, `sieved_to = 1`. -/
def initBasePrimes : BasePrimesSt := ⟨[], 1⟩

/-- Largest u32 value, used by the growth-target clamp in ensure. -/
def U32MAX : Nat := 2 ^ 32 - 1

/-- The inner clear loop `for (j = start; j <= target; j += p) mark[j] = 0`. -/
def clearRange (start step target : Nat) (m : Nat → Bool) : Nat → Bool :=
  (loopIdxs start (target + 1) step).foldl clearAt m

/-- The pre-mark loop over the existing primes, with its early `break`
when `p * p > target`. -/
def preMark (target : Nat) : List Nat → (Nat → Bool) → Nat → Bool
  | [], m => m
  | p :: ps, m => if p * p > target then m else preMark target ps (clearRange (p * p) p target m)

/-- The fresh mark array `mark(target + 1, 1)` with cells 0 and 1 cleared
(cell 1 only when `target >= 1`, exactly as guarded in the source). -/
def markInit (target : Nat) : Nat → Bool :=
  fun i => if i = 0 then false else if 1 ≤ target ∧ i = 1 then false else true

/-- The main sieve loop `for (i = 2; i*i <= target; ++i)`.  Because
`i * i <= target` is equivalent to `i <= Nat.sqrt target`, the values taken
by `i` are exactly `2, 3, ..., Nat.sqrt target`. -/
def sieveMain (target : Nat) (m : Nat → Bool) : Nat → Bool :=
  (List.range' 2 (Nat.sqrt target - 1)).foldl
    (fun mk i => if mk i then clearRange (i * i) i target mk else mk) m

/-- The rebuild loop `for (i = 2; i <= target; ++i) if (mark[i]) primes.push_back(i)`. -/
def collectPrimes (target : Nat) (m : Nat → Bool) : List Nat :=
  ((List.range (target + 1)).drop 2).filter m

/-- The local `target` of ensure:
`max(new_need, sieved_to ? min(u32max, sieved_to * 2u) : new_need)`, keeping
the u32 wraparound of `sieved_to * 2u` and the clamp to u32max. -/
def growthTarget (st : BasePrimesSt) (new_need : Nat) : Nat :=
  max new_need (if st.sieved_to ≠ 0 then min U32MAX (st.sieved_to * 2 % 2 ^ 32) else new_need)

/-- BasePrimes::ensure. -/
def ensure (st : BasePrimesSt) (new_need : Nat) : BasePrimesSt :=
  if new_need ≤ st.sieved_to then st
  else
    ⟨collectPrimes (growthTarget st new_need)
        (sieveMain (growthTarget st new_need)
          (preMark (growthTarget st new_need) st.primes (markInit (growthTarget st new_need)))),
      growthTarget st new_need⟩

/-! ## WorkAllocator (optimized_multi_core_pi.cpp)

```
struct WorkAllocator {
  static constexpr size_t SEG_BYTES  = 16 * 1024;
  static constexpr size_t SEG_U64S   = SEG_BYTES / 8;
  static constexpr u64    SEG_BITS   = SEG_BYTES * 8;
  static constexpr u64    SEG_ODDS   = SEG_BITS;
  static constexpr u64    SEG_SPAN   = SEG_ODDS * 2;
  static constexpr int    CHUNK_SEGS = 32;
  static constexpr u64    CHUNK_SPAN = SEG_SPAN * CHUNK_SEGS;
  std::atomic<uint32_t> next_chunk{0};
  u64 get_chunk() { uint32_t id = next_chunk.fetch_add(1, relaxed);
                    return 3 + (u64)id * CHUNK_SPAN; } };
```
The atomic counter hands out ids 0, 1, 2, ... in sequence; `get_chunk` below
is the deterministic map from an id to its chunk lower bound.  The id is a
u32 and the u64 product never wraps for any u32 id (proved below), so Nat
arithmetic is exact here. -/

def SEG_BYTES : Nat := 16 * 1024
def SEG_U64S : Nat := SEG_BYTES / 8
def SEG_BITS : Nat := SEG_BYTES * 8
def SEG_ODDS : Nat := SEG_BITS
def SEG_SPAN : Nat := SEG_ODDS * 2
def CHUNK_SEGS : Nat := 32
def CHUNK_SPAN : Nat := SEG_SPAN * CHUNK_SEGS

/-- WorkAllocator::get_chunk as a function of the fetched id. -/
def get_chunk (id : Nat) : Nat := 3 + id * CHUNK_SPAN

/-- Lower bound of segment `seg` inside the chunk starting at `get_chunk k`:
`lo = chunk_lo + seg * SEG_SPAN`. -/
def segLo (k seg : Nat) : Nat := get_chunk k + seg * SEG_SPAN

/-- The value represented by buffer bit `i` of that segment:
`lo_odd + (i << 1)` with `lo_odd = lo | 1`. -/
def segValue (k seg i : Nat) : Nat := orOne (segLo k seg) + 2 * i

/-! ## Worker segment sieve (optimized_multi_core_pi.cpp)

Per-thread sieving of one segment `[lo, hi)`, `hi = lo + SEG_SPAN`.  The flag
buffer holds one bit per odd number; it is accessed only through
`clear_bit(arr, idx)` and `test_bit(arr, idx)`, so it is embedded as the
function from bit index to flag.  For each base prime (index `bi >= start_idx`,
where `start_idx` skips a leading prime 2):

```
u32 p = primes[bi];  u64 step = p * 2;
u64 j = next_mult[bi];
if (j < lo_odd) { u64 m = ((lo_odd + p - 1) / p) * p; if ((m & 1) == 0) m += p; j = m; }
u64 end = lo_odd + SEG_SPAN;
while (j + 3*step < end) { ... four clears guarded by idx < SEG_BITS ...; j += 4*step; }
while (j < end) { u64 idx = (j - lo_odd) >> 1; if (idx < SEG_BITS) clear_bit(...); j += step; }
next_mult[bi] = j;
```

The 4x-unrolled block and the remainder loop together clear the guarded
indices for exactly the ascending sequence `j, j + step, ...` below `end`,
and exit with the first `j >= end`; the fold below visits that sequence. -/

/-- Cursor reseed used when the carried cursor is behind the segment:
first multiple of `p` at or above `lo_odd`, bumped by `p` to make it odd. -/
def reseedCursor (lo_odd p : Nat) : Nat :=
  let m := (lo_odd + p - 1) / p * p
  if m % 2 = 0 then m + p else m

/-- Initial `next_mult` entry for a newly added base prime (`0` for `p = 2`,
which the strike loop skips). -/
def nextMultInit (lo_odd p : Nat) : Nat := if p = 2 then 0 else reseedCursor lo_odd p

/-- The strike loop of the worker for one base prime: clears the bit
`(j - lo_odd) >> 1` (when below SEG_BITS) for each cursor value below `endv`
and returns the flags together with the exit cursor. -/
def strikeSegC (lo_odd endv p j : Nat) (f : Nat → Bool) : (Nat → Bool) × Nat :=
  let step := p * 2
  ((loopIdxs j endv step).foldl
      (fun g v => if (v - lo_odd) / 2 < SEG_BITS then clearAt g ((v - lo_odd) / 2) else g) f,
   loopExit j endv step)

/-- The worker loop over the base primes with their `next_mult` seeds,
including the behind-the-segment reseed branch. -/
def strikeAllC (lo_odd endv : Nat) (pjs : List (Nat × Nat)) (f : Nat → Bool) : Nat → Bool :=
  pjs.foldl
    (fun g pj =>
      let j := if pj.2 < lo_odd then reseedCursor lo_odd pj.1 else pj.2
      (strikeSegC lo_odd endv pj.1 j g).1) f

/-- The flag buffer produced for the very first segment of chunk 0 of a run:
`main` bootstraps the table with `ensure(100)`; the worker takes chunk 0
(`chunk_lo = 3`), segment 0 (`lo = 3`, `lo_odd = 3 | 1 = 3`,
`hi = 3 + SEG_SPAN`), calls `ensure` for
`need = min(u32max, floor(sqrt(hi - 1)))`, seeds `next_mult` for every table
prime from `lo_odd`, skips a leading 2, resets the buffer to all-prime
(`memset 0xFF`) and strikes. -/
def workerFirstSegFlags : Nat → Bool :=
  let st := ensure initBasePrimes 100
  let need64 := Nat.sqrt (3 + SEG_SPAN - 1)
  let st2 := ensure st (min U32MAX need64)
  let pjs := st2.primes.map fun p => (p, nextMultInit (orOne 3) p)
  let pjs1 := if st2.primes.headD 0 = 2 then pjs.drop 1 else pjs
  strikeAllC (orOne 3) (orOne 3 + SEG_SPAN) pjs1 fun _ => true

/-! ## Counting the prime 2 (optimized_multi_core_pi.cpp, worker)

```
static bool counted_two = false;  static mutex two_mutex;
{ lock_guard<mutex> lk(two_mutex);
  if (!counted_two) { local_count = 1; local_largest = 2; counted_two = true; } }
```
Every worker thread runs this block once at startup; the mutex serialises the
executions, so a run of `t` threads is a sequence of `t` executions against
the shared flag.  `twoEntry` is one execution (returning the contribution to
the local count and the new flag); `twoContrib` folds a whole run. -/

/-- One execution of the counted-two block. -/
def twoEntry (counted : Bool) : Nat × Bool := if !counted then (1, true) else (0, counted)

/-- Total contribution of the prime 2 to the summed counts over `t` thread
startups, starting from flag value `c`. -/
def twoContrib : Nat → Bool → Nat
  | 0, _ => 0
  | t + 1, c => (twoEntry c).1 + twoContrib t (twoEntry c).2

/-! ## Segment claim in worker_thread (optimized_multi_core.cpp)

```
u64 low = global_low.fetch_add(SEG_SIZE);
u64 high = low + SEG_SIZE;
```
with `SEG_SIZE = 32000` and no overflow check anywhere in the loop body: the
thread always proceeds to sieve `[low, high)`.  Both additions are u64, i.e.
modulo `2 ^ 64`. -/

def MC_SEG_SIZE : Nat := 32000

/-- The segment issued by one `fetch_add` when the shared counter holds
`low`, and the new counter value.  The code contains no overflow branch, so
the segment is issued unconditionally. -/
def mcClaimSegment (low : Nat) : (Nat × Nat) × Nat :=
  ((low, (low + MC_SEG_SIZE) % 2 ^ 64), (low + MC_SEG_SIZE) % 2 ^ 64)

/-! ## Carried cursors (optimized_segmented_sieve_refactor.cpp)

```
static inline u64 first_odd_multiple_ge(u64 lo, u64 p) {
  u64 m = (lo % p == 0) ? lo : lo + (p - (lo % p));
  if ((m & 1ULL) == 0) m += p;
  return m; }
```
and the per-prime strike loop of `main`:

```
u64 step = (u64)p << 1;
u64 j = next_mult[bi];
if (j < lo) { u64 delta = lo - j;  u64 jump4 = step << 2;
              while (delta >= jump4) { j += jump4; delta -= jump4; }
              while (j < lo) j += step; }
for (; j < hi; j += step) { u64 idx = (j - lo_odd) >> 1; flags[idx] = 0; }
next_mult[bi] = j;
```

`strikeD` returns the cleared index list (ascending, as the loop visits
them) together with the carried-out cursor.  In `fastForwardD` the jump4
loop runs exactly `delta / jump4` times, each adding `jump4`. -/

/-- first_odd_multiple_ge. -/
def firstOddMultipleGe (lo p : Nat) : Nat :=
  let m := if lo % p = 0 then lo else lo + (p - lo % p)
  if m % 2 = 0 then m + p else m

/-- The strike loop of the refactor: cleared indices and the exit cursor. -/
def strikeD (lo_odd hi step j : Nat) : List Nat × Nat :=
  ((loopIdxs j hi step).map fun v => (v - lo_odd) / 2, loopExit j hi step)

/-- The no-division fast-forward: 4-step jumps while possible, then single
steps until the cursor reaches `lo`. -/
def fastForwardD (step lo j : Nat) : Nat :=
  if j < lo then
    let delta := lo - j
    let jump4 := step * 4
    let j1 := j + jump4 * (delta / jump4)
    loopExit j1 lo step
  else j

/-! ## sieve_segment (primes_quad_core.cpp)

The buffer is `vector<u64> is_prime_bits((SEG_SIZE + 63) / 64, ~0ULL)`; bit
`j` of word `j / 64` stands for the value `low + j`.  It is embedded as a
list of words (each a Nat below `2 ^ 64`).  For each base prime:

```
u64 start = ((low + p - 1) / p) * p;
if (start < p*p) start = p*p;
if (start >= high) continue;
u64 j = start - low;
if (p == 2) { u64 start_bit = (low % 2 == 0) ? 0 : 1;  word_idx = start_bit / 64;
              bit_idx = start_bit % 64;
              while (word_idx < bits_needed) { mask = 0x5555...; if (bit_idx % 2 == 1) mask = 0xAAAA...;
                                               w &= ~mask; ++word_idx; bit_idx = 0; } }
else { ... unrolled loops clearing bit j, stepping j += p, while j < SEG_SIZE ... }
```

The 16x (p < 32), 4x (p < 256) and plain strike loops clear the same
ascending bit positions `j, j + p, ...` below SEG_SIZE and are embedded as
one fold. -/

/-- All 64 bits set: the u64 value ~0. -/
def MASK64 : Nat := 2 ^ 64 - 1

/-- The alternating mask 0x5555555555555555 (bits 0, 2, 4, ...). -/
def MASK5555 : Nat := (MASK64 + 1) / 3

/-- The alternating mask 0xAAAAAAAAAAAAAAAA (bits 1, 3, 5, ...). -/
def MASKAAAA : Nat := MASK5555 * 2

/-- Clearing bit `j` of the word array:
`arr[j / 64] &= ~(1ULL << (j % 64))`. -/
def clearBitW (ws : List Nat) (j : Nat) : List Nat :=
  ws.set (j / 64) (ws.getD (j / 64) 0 &&& (MASK64 - 2 ^ (j % 64)))

/-- The p == 2 branch: `w &= ~mask` on every word, where the first word uses
mask 0xAAAA... when `start_bit` is odd and every later word (bit_idx reset
to 0) uses 0x5555... . -/
def clearEvensW (ws : List Nat) (start_bit : Nat) : List Nat :=
  (List.range ws.length).map fun wi =>
    ws.getD wi 0 &&& (MASK64 - (if wi = 0 ∧ start_bit % 2 = 1 then MASKAAAA else MASK5555))

/-- The strike fold for one odd prime: clear bit `j` for
`j = start - low, +p, ...` while `j < SEG_SIZE`. -/
def strikeWordsQC (j segSize p : Nat) (ws : List Nat) : List Nat :=
  (loopIdxs j segSize p).foldl clearBitW ws

/-- The boundary correction
`if (low <= 1) { if (low == 0) clear bit 0; if (high > 1) clear bit 1 - low; }`. -/
def clearLowSpecials (low high : Nat) (ws : List Nat) : List Nat :=
  if low ≤ 1 then
    let ws1 := if low = 0 then clearBitW ws 0 else ws
    if high > 1 then clearBitW ws1 (1 - low) else ws1
  else ws

/-- sieve_segment of primes_quad_core.cpp: the final word buffer for the
range `[low, high)` sieved with the given base primes. -/
def sieveSegQC (low high : Nat) (base : List Nat) : List Nat :=
  let segSize := high - low
  let bitsNeeded := (segSize + 63) / 64
  let ws0 := List.replicate bitsNeeded MASK64
  let ws1 := base.foldl
    (fun ws p =>
      let start0 := (low + p - 1) / p * p
      let start := if start0 < p * p then p * p else start0
      if start ≥ high then ws
      else if p = 2 then clearEvensW ws (if low % 2 = 0 then 0 else 1)
      else strikeWordsQC (start - low) segSize p ws)
    ws0
  clearLowSpecials low high ws1

/-! ## Popcount-based counting (primes_quad_core.cpp lines 154-167, also the
counting epilogue of the single-threaded variants)

```
u64 segment_primes = 0;
u64 full_words = n / 64;
for (i = 0; i < full_words; ++i) segment_primes += popcountll(bits[i]);
u64 remainder = n % 64;
if (remainder > 0) { u64 mask = (1ULL << remainder) - 1;
                     segment_primes += popcountll(bits[full_words] & mask); }
```

The bit-by-bit reference loop is the counting loop of pi_worker_thread
(primes_quad_core.cpp lines 386-394):
`for (i = 0; i < n; ++i) if (bits[i/64] & (1ULL << (i%64))) ++count;`. -/

/-- Population count of one 64-bit word: the number of set bits among bit
positions 0..63, the value returned by popcountll. -/
def popcount64 (w : Nat) : Nat := ((List.range 64).filter fun i => w.testBit i).length

/-- The word-at-a-time counting routine: popcount of each full word plus the
popcount of the final partial word under the mask `(1 << (n % 64)) - 1`. -/
def countWords (ws : List Nat) (n : Nat) : Nat :=
  let fullWords := n / 64
  let base := ((List.range fullWords).map fun i => popcount64 (ws.getD i 0)).foldl (· + ·) 0
  if n % 64 > 0 then base + popcount64 (ws.getD fullWords 0 &&& (2 ^ (n % 64) - 1))
  else base

/-- The bit-by-bit test-and-count loop over the first `n` bit positions. -/
def countBitsNaive (ws : List Nat) (n : Nat) : Nat :=
  ((List.range n).filter fun i => (ws.getD (i / 64) 0).testBit (i % 64)).length

/-- The surviving values of a sieved quad-core segment: every `low + i` with
bit `i` still set, `i < high - low`. -/
def survivorsQC (low high : Nat) (ws : List Nat) : List Nat :=
  (((List.range (high - low)).filter fun i => (ws.getD (i / 64) 0).testBit (i % 64)).map (low + ·))

/-! ## SegmentedSieve::sieve_segment (generic_segmented_sieve.cpp)

Works on the inclusive range `[low, high]` with a `vector<bool>`:

```
T range = high - low + 1;  vector<bool> is_prime(range, true);
if (low <= 1) for (i = 0; i < min(2, range); ++i) is_prime[i] = false;
for (T prime : base_primes) {
  if (prime * prime > high) break;
  T start = max(prime * prime, (low + prime - 1) / prime * prime);
  for (j = start; j <= high; j += prime) is_prime[j - low] = false; }
for (i = 0; i < range; ++i) if (is_prime[i] && low + i >= 2) push(low + i);
```
-/

/-- The strike loop of the generic variant over the base-prime list, with
its early break when `prime * prime > high`. -/
def genStrike (low high : Nat) : List Nat → List Bool → List Bool
  | [], v => v
  | p :: ps, v =>
    if p * p > high then v
    else
      let start := max (p * p) ((low + p - 1) / p * p)
      genStrike low high ps ((loopIdxs start (high + 1) p).foldl (fun w j => w.set (j - low) false) v)

/-- SegmentedSieve::sieve_segment: the list of primes collected from the
inclusive range `[low, high]`. -/
def sieveSegmentGeneric (low high : Nat) (base : List Nat) : List Nat :=
  let range := high - low + 1
  let v0 : List Bool := List.replicate range true
  let v1 := if low ≤ 1 then (List.range range).map (fun i => if i < 2 then false else v0.getD i false) else v0
  let v2 := genStrike low high base v1
  ((List.range range).filter fun i => v2.getD i false && decide (2 ≤ low + i)).map (low + ·)

/-! # Lemmas

## Generic facts about the loop embeddings -/

theorem clearAt_apply (m : Nat → Bool) (j x : Nat) :
    clearAt m j x = if x = j then false else m x := rfl

theorem foldl_clearAt_apply (l : List Nat) (m : Nat → Bool) (x : Nat) :
    l.foldl clearAt m x = (m x && !decide (x ∈ l)) := by
  induction l generalizing m with
  | nil => simp
  | cons a l ih =>
    simp only [List.foldl_cons, ih, clearAt_apply, List.mem_cons]
    by_cases h : x = a <;> simp [h]

theorem foldl_clearAt_false (l : List Nat) (m : Nat → Bool) (x : Nat) (hx : m x = false) :
    l.foldl clearAt m x = false := by
  simp [foldl_clearAt_apply, hx]

theorem mem_loopIdxs {j bound step x : Nat} (hs : 0 < step) :
    x ∈ loopIdxs j bound step ↔ j ≤ x ∧ x < bound ∧ (x - j) % step = 0 := by
  unfold loopIdxs loopCount
  rw [List.mem_range']
  constructor
  · rintro ⟨i, hi, rfl⟩
    have h1 : (i + 1) * step ≤ bound - j + (step - 1) :=
      (Nat.le_div_iff_mul_le hs).mp hi
    have h1' : i * step + step ≤ bound - j + (step - 1) := by
      rw [Nat.succ_mul] at h1
      omega
    have hc : step * i = i * step := Nat.mul_comm _ _
    refine ⟨Nat.le_add_right _ _, by omega, ?_⟩
    simp [Nat.add_sub_cancel_left, Nat.mul_mod_right]
  · rintro ⟨h1, h2, h3⟩
    have hd : step ∣ x - j := Nat.dvd_iff_mod_eq_zero.mpr h3
    obtain ⟨i, hi⟩ := hd
    refine ⟨i, ?_, by omega⟩
    rw [Nat.lt_iff_add_one_le, Nat.le_div_iff_mul_le hs, Nat.succ_mul]
    have hc : step * i = i * step := Nat.mul_comm _ _
    omega

theorem loopCount_eq_zero {j bound step : Nat} (h : bound ≤ j) :
    loopCount j bound step = 0 := by
  unfold loopCount
  have hz : bound - j = 0 := by omega
  rw [hz, Nat.zero_add]
  rcases Nat.eq_zero_or_pos step with h0 | h0
  · simp [h0]
  · exact Nat.div_eq_of_lt (by omega)

theorem loopExit_of_ge {j bound step : Nat} (h : bound ≤ j) : loopExit j bound step = j := by
  unfold loopExit
  rw [loopCount_eq_zero h]
  omega

theorem loopExit_ge {j bound step : Nat} (hs : 0 < step) : bound ≤ loopExit j bound step := by
  rcases Nat.le_total bound j with h | h
  · rw [loopExit_of_ge h]
    exact h
  · unfold loopExit loopCount
    have hdm := Nat.div_add_mod (bound - j + (step - 1)) step
    have hlt : (bound - j + (step - 1)) % step < step := Nat.mod_lt _ hs
    omega

theorem loopExit_lt {j bound step : Nat} (hs : 0 < step) (h : j < bound) :
    loopExit j bound step < bound + step := by
  unfold loopExit loopCount
  have h1 : (bound - j + (step - 1)) / step * step ≤ bound - j + (step - 1) :=
    Nat.div_mul_le_self _ _
  have h2 : step * ((bound - j + (step - 1)) / step)
      = (bound - j + (step - 1)) / step * step := Nat.mul_comm _ _
  omega

/-! ## Trial division agrees with Nat.Prime -/

theorem trialDivisionIsPrime_iff (n : Nat) : trialDivisionIsPrime n = true ↔ Nat.Prime n := by
  unfold trialDivisionIsPrime
  simp only [Bool.and_eq_true, decide_eq_true_eq, List.all_eq_true, List.mem_range,
    Bool.or_eq_true]
  constructor
  · rintro ⟨h2, hall⟩
    rw [Nat.prime_def_lt]
    refine ⟨h2, fun m hm hdvd => ?_⟩
    by_contra hne
    have hm0 : m ≠ 0 := fun h0 => by
      subst h0
      exact absurd (Nat.eq_zero_of_zero_dvd hdvd) (by omega)
    rcases hall m hm with h | h
    · omega
    · exact h (Nat.dvd_iff_mod_eq_zero.mp hdvd)
  · intro hp
    refine ⟨hp.two_le, fun d hd => ?_⟩
    by_cases hd2 : d < 2
    · exact Or.inl hd2
    · refine Or.inr fun hmod => ?_
      have hdvd : d ∣ n := Nat.dvd_iff_mod_eq_zero.mpr hmod
      have := (Nat.prime_def_lt.mp hp).2 d hd hdvd
      omega

theorem trialDivisionIsPrime_eq_decide (n : Nat) :
    trialDivisionIsPrime n = decide (Nat.Prime n) := by
  rcases h : trialDivisionIsPrime n with _ | _
  · have hnp : ¬ Nat.Prime n := fun hp => by
      have hcontra := (trialDivisionIsPrime_iff n).mpr hp
      rw [h] at hcontra
      exact Bool.false_ne_true hcontra
    simp [hnp]
  · simp [(trialDivisionIsPrime_iff n).mp h]

theorem mem_primesListTo {n q : Nat} : q ∈ primesListTo n ↔ Nat.Prime q ∧ q ≤ n := by
  unfold primesListTo
  rw [List.mem_filter, List.mem_range, trialDivisionIsPrime_iff]
  exact ⟨fun ⟨a, b⟩ => ⟨b, by omega⟩, fun ⟨a, b⟩ => ⟨by omega, a⟩⟩

theorem primesListTo_pairwise (n : Nat) : List.Pairwise (· < ·) (primesListTo n) :=
  (List.pairwise_lt_range _).filter _

/-! ## Correctness of the classic sieve inside ensure -/

theorem clearRange_apply (start step target : Nat) (hs : 0 < step) (m : Nat → Bool) (x : Nat) :
    clearRange start step target m x
      = (m x && !decide (start ≤ x ∧ x ≤ target ∧ (x - start) % step = 0)) := by
  unfold clearRange
  rw [foldl_clearAt_apply]
  have hmem : decide (x ∈ loopIdxs start (target + 1) step)
      = decide (start ≤ x ∧ x ≤ target ∧ (x - start) % step = 0) := by
    apply decide_eq_decide.mpr
    rw [mem_loopIdxs hs]
    exact ⟨fun ⟨a, b, c⟩ => ⟨a, by omega, c⟩, fun ⟨a, b, c⟩ => ⟨a, by omega, c⟩⟩
  rw [hmem]

theorem clearRange_false (start step target : Nat) (m : Nat → Bool) (x : Nat)
    (hx : m x = false) : clearRange start step target m x = false :=
  foldl_clearAt_false _ _ _ hx

theorem not_prime_of_in_clearRange {p x : Nat} (hp : 2 ≤ p) (h1 : p * p ≤ x)
    (h3 : (x - p * p) % p = 0) : ¬ Nat.Prime x := by
  intro hpr
  have hd2 : p ∣ x - p * p := Nat.dvd_iff_mod_eq_zero.mpr h3
  have hdx : p ∣ x := by
    have hx : x = (x - p * p) + p * p := by omega
    rw [hx]
    exact Nat.dvd_add hd2 (Dvd.intro p rfl)
  rcases hpr.eq_one_or_self_of_dvd p hdx with h | h
  · omega
  · nlinarith

theorem preMark_false (target : Nat) (ps : List Nat) (m : Nat → Bool) (x : Nat)
    (hx : m x = false) : preMark target ps m x = false := by
  induction ps generalizing m with
  | nil => exact hx
  | cons p ps ih =>
    unfold preMark
    by_cases hb : p * p > target
    · simp [hb, hx]
    · simp only [hb, if_false]
      exact ih _ (clearRange_false _ _ _ _ _ hx)

theorem preMark_prime (target : Nat) (ps : List Nat) (h2 : ∀ q ∈ ps, 2 ≤ q)
    (m : Nat → Bool) (x : Nat) (hx : Nat.Prime x) (hm : m x = true) :
    preMark target ps m x = true := by
  induction ps generalizing m with
  | nil => exact hm
  | cons p ps ih =>
    unfold preMark
    by_cases hb : p * p > target
    · simp [hb, hm]
    · simp only [hb, if_false]
      have hp2 : 2 ≤ p := h2 p (List.mem_cons_self _ _)
      refine ih (fun q hq => h2 q (List.mem_cons_of_mem _ hq)) _ ?_
      rw [clearRange_apply _ _ _ (by omega) _ _, hm]
      simp only [Bool.true_and, Bool.not_eq_true', decide_eq_false_iff_not]
      rintro ⟨ha, _, hc⟩
      exact not_prime_of_in_clearRange hp2 ha hc hx

theorem sieveMain_fold_false (target : Nat) (is : List Nat) (m : Nat → Bool) (x : Nat)
    (hx : m x = false) :
    is.foldl (fun mk i => if mk i then clearRange (i * i) i target mk else mk) m x = false := by
  induction is generalizing m with
  | nil => exact hx
  | cons i is ih =>
    simp only [List.foldl_cons]
    apply ih
    by_cases hmi : m i = true
    · simp [hmi, clearRange_false _ _ _ _ _ hx]
    · simp [hmi, hx]

theorem sieveMain_fold_prime (target : Nat) (is : List Nat) (h2 : ∀ i ∈ is, 2 ≤ i)
    (m : Nat → Bool) (x : Nat) (hx : Nat.Prime x) (hm : m x = true) :
    is.foldl (fun mk i => if mk i then clearRange (i * i) i target mk else mk) m x = true := by
  induction is generalizing m with
  | nil => exact hm
  | cons i is ih =>
    simp only [List.foldl_cons]
    have hi2 : 2 ≤ i := h2 i (List.mem_cons_self _ _)
    refine ih (fun q hq => h2 q (List.mem_cons_of_mem _ hq)) _ ?_
    by_cases hmi : m i = true
    · simp only [hmi, if_true]
      rw [clearRange_apply _ _ _ (by omega) _ _, hm]
      simp only [Bool.true_and, Bool.not_eq_true', decide_eq_false_iff_not]
      rintro ⟨ha, _, hc⟩
      exact not_prime_of_in_clearRange hi2 ha hc hx
    · simp [hmi, hm]

theorem sieveMain_fold_clears (target : Nat) (is : List Nat) (h2 : ∀ i ∈ is, 2 ≤ i)
    (q : Nat) (hqis : q ∈ is) (hqp : Nat.Prime q) (x : Nat) (hq2 : q * q ≤ x)
    (hxt : x ≤ target) (hdvd : q ∣ x) (m : Nat → Bool) (hm : m q = true) :
    is.foldl (fun mk i => if mk i then clearRange (i * i) i target mk else mk) m x = false := by
  induction is generalizing m with
  | nil => cases hqis
  | cons i is ih =>
    simp only [List.foldl_cons]
    have hi2 : 2 ≤ i := h2 i (List.mem_cons_self _ _)
    by_cases hiq : i = q
    · subst hiq
      rw [hm, if_pos rfl]
      apply sieveMain_fold_false
      rw [clearRange_apply _ _ _ (by omega) _ _]
      have hmod : (x - i * i) % i = 0 := by
        apply Nat.dvd_iff_mod_eq_zero.mp
        exact Nat.dvd_sub' hdvd (Dvd.intro i rfl)
      simp [hq2, hxt, hmod]
    · have hqis' : q ∈ is := by
        rcases List.mem_cons.mp hqis with h | h
        · exact absurd h.symm hiq
        · exact h
      refine ih (fun r hr => h2 r (List.mem_cons_of_mem _ hr)) hqis' _ ?_
      by_cases hmi : m i = true
      · simp only [hmi, if_true]
        rw [clearRange_apply _ _ _ (by omega) _ _, hm]
        simp only [Bool.true_and, Bool.not_eq_true', decide_eq_false_iff_not]
        rintro ⟨ha, _, hc⟩
        exact not_prime_of_in_clearRange hi2 ha hc hqp
      · simp [hmi, hm]

theorem sieveMain_correct (target : Nat) (m : Nat → Bool)
    (hprime : ∀ x, Nat.Prime x → m x = true) (x : Nat) (h2 : 2 ≤ x) (hxt : x ≤ target) :
    (sieveMain target m x = true ↔ Nat.Prime x) := by
  unfold sieveMain
  have hmem2 : ∀ i ∈ List.range' 2 (Nat.sqrt target - 1), 2 ≤ i := by
    intro i hi
    rw [List.mem_range'] at hi
    obtain ⟨k, _, rfl⟩ := hi
    omega
  constructor
  · intro htrue
    by_contra hnp
    have hq := Nat.minFac_prime (n := x) (by omega)
    have hqd := Nat.minFac_dvd x
    have hqsq : x.minFac * x.minFac ≤ x := by
      have hs := Nat.minFac_sq_le_self (by omega) hnp
      rw [pow_two] at hs
      exact hs
    have hqle : x.minFac ≤ Nat.sqrt target := Nat.le_sqrt.mpr (le_trans hqsq hxt)
    have hq2 := hq.two_le
    have hqmem : x.minFac ∈ List.range' 2 (Nat.sqrt target - 1) := by
      rw [List.mem_range']
      refine ⟨x.minFac - 2, by omega, ?_⟩
      simp only [Nat.one_mul]
      omega
    have hfalse := sieveMain_fold_clears target _ hmem2 x.minFac hqmem hq x hqsq hxt hqd m
      (hprime _ hq)
    rw [hfalse] at htrue
    exact Bool.false_ne_true htrue
  · intro hp
    exact sieveMain_fold_prime target _ hmem2 m x hp (hprime x hp)

theorem range_split_two (n : Nat) (h : 2 ≤ n) :
    List.range n = 0 :: 1 :: List.range' 2 (n - 2) := by
  have happ := List.range'_append_1 0 2 (n - 2)
  have h2 : n - 2 + 2 = n := by omega
  rw [h2] at happ
  rw [List.range_eq_range', ← happ]
  rfl

theorem collectPrimes_eq (target : Nat) (ht : 1 ≤ target) (m : Nat → Bool)
    (hm : ∀ x, 2 ≤ x → x ≤ target → (m x = true ↔ Nat.Prime x)) :
    collectPrimes target m = primesListTo target := by
  unfold collectPrimes primesListTo
  rw [range_split_two (target + 1) (by omega)]
  have hd : (0 :: 1 :: List.range' 2 (target + 1 - 2)).drop 2 = List.range' 2 (target + 1 - 2) := rfl
  rw [hd]
  rw [List.filter_cons, List.filter_cons]
  have h0 : trialDivisionIsPrime 0 = false := rfl
  have h1 : trialDivisionIsPrime 1 = false := rfl
  rw [h0, h1]
  simp only [Bool.false_eq_true, if_false]
  apply List.filter_congr
  intro x hx
  rw [List.mem_range'] at hx
  obtain ⟨k, hk, rfl⟩ := hx
  simp only [Nat.one_mul] at hk ⊢
  have hx2 : 2 ≤ 2 + k := by omega
  have hxt : 2 + k ≤ target := by omega
  rw [trialDivisionIsPrime_eq_decide]
  rcases hb : m (2 + k) with _ | _
  · have hnp : ¬ Nat.Prime (2 + k) := fun hp => by
      have ht' := (hm _ hx2 hxt).mpr hp
      rw [hb] at ht'
      exact Bool.false_ne_true ht'
    simp [hnp]
  · simp [(hm _ hx2 hxt).mp hb]

theorem growthTarget_ge (st : BasePrimesSt) (k : Nat) : k ≤ growthTarget st k :=
  Nat.le_max_left _ _

theorem ensure_of_le {st : BasePrimesSt} {k : Nat} (h : k ≤ st.sieved_to) : ensure st k = st := by
  simp [ensure, h]

theorem ensure_of_gt {st : BasePrimesSt} {k : Nat} (h : ¬ k ≤ st.sieved_to) :
    ensure st k =
      ⟨collectPrimes (growthTarget st k)
          (sieveMain (growthTarget st k)
            (preMark (growthTarget st k) st.primes (markInit (growthTarget st k)))),
        growthTarget st k⟩ := by
  simp [ensure, h]

theorem ensure_primes_eq (st : BasePrimesSt) (k : Nat)
    (hst : st.primes = primesListTo st.sieved_to) :
    (ensure st k).primes = primesListTo (ensure st k).sieved_to := by
  by_cases h : k ≤ st.sieved_to
  · rw [ensure_of_le h]
    exact hst
  · rw [ensure_of_gt h]
    have ht : 1 ≤ growthTarget st k := le_trans (by omega) (growthTarget_ge st k)
    have hps2 : ∀ q ∈ st.primes, 2 ≤ q := by
      intro q hq
      rw [hst] at hq
      exact (mem_primesListTo.mp hq).1.two_le
    have hm1 : ∀ x, Nat.Prime x →
        preMark (growthTarget st k) st.primes (markInit (growthTarget st k)) x = true := by
      intro x hx
      apply preMark_prime _ _ hps2 _ _ hx
      unfold markInit
      have h2 := hx.two_le
      simp only [show x ≠ 0 by omega, if_false]
      simp [show ¬ (1 ≤ growthTarget st k ∧ x = 1) from fun ⟨_, h1⟩ => by omega]
    exact collectPrimes_eq _ ht _ fun x h2 hxt => sieveMain_correct _ _ hm1 x h2 hxt

theorem ensure_sieved_to_ge (st : BasePrimesSt) (k : Nat) : k ≤ (ensure st k).sieved_to := by
  by_cases h : k ≤ st.sieved_to
  · rw [ensure_of_le h]
    exact h
  · rw [ensure_of_gt h]
    exact growthTarget_ge st k

/-! ## Claim theorems for the base-prime table -/

/-- C2: after any finite sequence of ensure(target) calls starting from the
initial table state, the primes sequence is exactly the ascending
(strictly increasing, hence duplicate-free) list of every prime at most
sieved_to, and contains no value above sieved_to. -/
theorem basePrimeTable_invariant (calls : List Nat) :
    (calls.foldl ensure initBasePrimes).primes
        = primesListTo (calls.foldl ensure initBasePrimes).sieved_to
      ∧ List.Pairwise (· < ·) (calls.foldl ensure initBasePrimes).primes
      ∧ ∀ q, q ∈ (calls.foldl ensure initBasePrimes).primes
          ↔ Nat.Prime q ∧ q ≤ (calls.foldl ensure initBasePrimes).sieved_to := by
  have hmain : (calls.foldl ensure initBasePrimes).primes
      = primesListTo (calls.foldl ensure initBasePrimes).sieved_to := by
    suffices h : ∀ st : BasePrimesSt, st.primes = primesListTo st.sieved_to →
        (calls.foldl ensure st).primes = primesListTo (calls.foldl ensure st).sieved_to by
      exact h initBasePrimes rfl
    induction calls with
    | nil => exact fun st h => h
    | cons c cs ih => exact fun st h => ih _ (ensure_primes_eq st c h)
  refine ⟨hmain, ?_, ?_⟩
  · rw [hmain]
    exact primesListTo_pairwise _
  · intro q
    rw [hmain, mem_primesListTo]

/-- C7: ensure is idempotent.  A call with `k` at most sieved_to returns the
state unchanged, and a second call with the same or a smaller argument after
any call is a no-op. -/
theorem ensure_idempotent :
    (∀ (st : BasePrimesSt) (k : Nat), k ≤ st.sieved_to → ensure st k = st) ∧
    ∀ (st : BasePrimesSt) (k k' : Nat), k' ≤ k → ensure (ensure st k) k' = ensure st k := by
  constructor
  · exact fun st k h => ensure_of_le h
  · exact fun st k k' h => ensure_of_le (le_trans h (ensure_sieved_to_ge st k))

/-- Witness for C7 at the concrete scenario ensure(10) then ensure(5). -/
theorem ensure_idempotent_witness :
    ensure initBasePrimes 0 = initBasePrimes
      ∧ ensure (ensure initBasePrimes 10) 5 = ensure initBasePrimes 10 :=
  ⟨ensure_idempotent.1 initBasePrimes 0 (by decide),
   ensure_idempotent.2 initBasePrimes 10 5 (by decide)⟩

/-! ## Claim theorems for the work allocator -/

/-- C3: the allocator maps id `k` to `3 + k * CHUNK_SPAN` with the fixed span
CHUNK_SPAN; ranges of distinct ids are disjoint (a value in two ranges forces
the ids equal) and the ranges cover every integer at least 3. -/
theorem workAllocator_partition :
    (∀ k, get_chunk k = 3 + k * CHUNK_SPAN) ∧
    (∀ k l n, get_chunk k ≤ n → n < get_chunk k + CHUNK_SPAN →
        get_chunk l ≤ n → n < get_chunk l + CHUNK_SPAN → k = l) ∧
    ∀ n, 3 ≤ n → ∃ k, get_chunk k ≤ n ∧ n < get_chunk k + CHUNK_SPAN := by
  refine ⟨fun k => rfl, ?_, ?_⟩
  · intro k l n h1 h2 h3 h4
    unfold get_chunk CHUNK_SPAN SEG_SPAN SEG_ODDS SEG_BITS SEG_BYTES CHUNK_SEGS at *
    omega
  · intro n hn
    refine ⟨(n - 3) / CHUNK_SPAN, ?_, ?_⟩ <;>
      · unfold get_chunk CHUNK_SPAN SEG_SPAN SEG_ODDS SEG_BITS SEG_BYTES CHUNK_SEGS
        omega

/-- Witness for C3: the value 9999999 lies in exactly one chunk range. -/
theorem workAllocator_partition_witness :
    3 ≤ 9999999 ∧ ∃ k, get_chunk k ≤ 9999999 ∧ 9999999 < get_chunk k + CHUNK_SPAN :=
  ⟨by decide, workAllocator_partition.2.2 9999999 (by decide)⟩

theorem orOne_ge (n : Nat) : n ≤ orOne n := by
  unfold orOne
  split <;> omega

/-- C10: every chunk lower bound is `3 + id * CHUNK_SPAN`, hence at least 3,
and every value represented in any segment buffer of any chunk is at least 3;
so the value 2 lies inside no chunk range and is never examined by the
segment-sieving loop, entering the count only through the dedicated
counted-two block. -/
theorem chunk_base_excludes_two :
    (∀ k, get_chunk k = 3 + k * CHUNK_SPAN) ∧
    (∀ k, 3 ≤ get_chunk k) ∧
    ∀ k s i, 3 ≤ segValue k s i := by
  have hchunk : ∀ k, 3 ≤ get_chunk k := fun k => by
    unfold get_chunk
    omega
  refine ⟨fun k => rfl, hchunk, ?_⟩
  intro k s i
  have h1 := orOne_ge (segLo k s)
  have h2 : 3 ≤ segLo k s := le_trans (hchunk k) (Nat.le_add_right _ _)
  unfold segValue
  omega

/-! ## Claim theorems for overflow behaviour (C9) -/

/-- C9, counterexample: at the u64 counter value `2 + 32000 * 576460752303423`
(reachable from the start value 2 by segment claims of width 32000) the next
segment claim computes an upper bound of 16386, which has silently wrapped
modulo `2 ^ 64` below the segment lower bound, and the claim is still issued:
no detection or early termination exists in the code. -/
theorem segment_bound_wraps_silently :
    (mcClaimSegment (2 + MC_SEG_SIZE * 576460752303423)).1.2 = 16386
      ∧ (mcClaimSegment (2 + MC_SEG_SIZE * 576460752303423)).1.2
          < (mcClaimSegment (2 + MC_SEG_SIZE * 576460752303423)).1.1 := by
  constructor <;> decide

/-- C9, amended: the canonical allocator itself cannot overflow: for every
32-bit id, every chunk lower bound, chunk upper bound and segment bound stays
at most `2 ^ 64`, so no wraparound occurs there (without any explicit check). -/
theorem canonical_chunk_bounds_below_u64 (id s : Nat) (hid : id < 2 ^ 32)
    (hs : s ≤ CHUNK_SEGS) :
    segLo id s + SEG_SPAN ≤ 2 ^ 64 ∧ get_chunk id + CHUNK_SPAN ≤ 2 ^ 64 := by
  unfold segLo get_chunk CHUNK_SPAN SEG_SPAN SEG_ODDS SEG_BITS SEG_BYTES CHUNK_SEGS at *
  omega

/-- Witness for the amended C9 statement at id 7, segment 5. -/
theorem canonical_chunk_bounds_below_u64_witness :
    (7 < 2 ^ 32 ∧ 5 ≤ CHUNK_SEGS)
      ∧ segLo 7 5 + SEG_SPAN ≤ 2 ^ 64 ∧ get_chunk 7 + CHUNK_SPAN ≤ 2 ^ 64 :=
  ⟨⟨by decide, by decide⟩, canonical_chunk_bounds_below_u64 7 5 (by decide) (by decide)⟩

/-! ## Claim theorem for the counted-two block (C8) -/

/-- C8: across any run with at least one worker thread (hence a processed
frontier past 2), the counted-two blocks contribute exactly one unit to the
summed prime count, independent of how many chunks and segments follow. -/
theorem two_counted_once (t : Nat) (h : 1 ≤ t) : twoContrib t false = 1 := by
  have haux : ∀ u, twoContrib u true = 0 := by
    intro u
    induction u with
    | zero => rfl
    | succ u ih => simp [twoContrib, twoEntry, ih]
  cases t with
  | zero => omega
  | succ u => simp [twoContrib, twoEntry, haux]

/-- Witness for C8 with four threads. -/
theorem two_counted_once_witness : 1 ≤ 4 ∧ twoContrib 4 false = 1 :=
  ⟨by decide, two_counted_once 4 (by decide)⟩

/-! ## Cursor-carry equivalence (C4) -/

theorem strikeD_snd (lo_odd hi step j : Nat) : (strikeD lo_odd hi step j).2 = loopExit j hi step :=
  rfl

theorem firstOddMultipleGe_spec (lo p : Nat) (hp : 0 < p) (hodd : p % 2 = 1) :
    p ∣ firstOddMultipleGe lo p ∧ firstOddMultipleGe lo p % 2 = 1 ∧
      lo ≤ firstOddMultipleGe lo p ∧
      ∀ m, p ∣ m → m % 2 = 1 → lo ≤ m → firstOddMultipleGe lo p ≤ m := by
  have hdm := Nat.div_add_mod lo p
  have hmod : lo % p < p := Nat.mod_lt _ hp
  -- facts about the intermediate m0, the least multiple of p at or above lo
  have hm0 : ∃ m0, (if lo % p = 0 then lo else lo + (p - lo % p)) = m0 ∧ p ∣ m0 ∧ lo ≤ m0 ∧
      ∀ m, p ∣ m → lo ≤ m → m0 ≤ m := by
    by_cases h0 : lo % p = 0
    · refine ⟨lo, by rw [if_pos h0], Nat.dvd_iff_mod_eq_zero.mpr h0, Nat.le_refl _, ?_⟩
      exact fun m _ hm => hm
    · refine ⟨lo + (p - lo % p), by rw [if_neg h0], ?_, by omega, ?_⟩
      · have heq : lo + (p - lo % p) = p * (lo / p + 1) := by
          rw [Nat.mul_add, Nat.mul_one]
          omega
        rw [heq]
        exact Dvd.intro _ rfl
      · rintro m ⟨t, rfl⟩ hm
        have ht : lo / p + 1 ≤ t := by
          by_contra hc
          push_neg at hc
          have hle : p * t ≤ p * (lo / p) := Nat.mul_le_mul_left p (by omega)
          omega
        have hfin : p * (lo / p + 1) ≤ p * t := Nat.mul_le_mul_left p ht
        rw [Nat.mul_add, Nat.mul_one] at hfin
        omega
  obtain ⟨m0, hif, hm0d, hm0ge, hm0min⟩ := hm0
  unfold firstOddMultipleGe
  rw [hif]
  by_cases hpar : m0 % 2 = 0
  · rw [if_pos hpar]
    refine ⟨Nat.dvd_add hm0d (Nat.dvd_refl p), by omega, by omega, ?_⟩
    intro m hmd hmo hmge
    have h1 : m0 ≤ m := hm0min m hmd hmge
    have h2 : m0 ≠ m := fun h => by omega
    obtain ⟨t, rfl⟩ := hmd
    obtain ⟨q, rfl⟩ := hm0d
    have hqt : q < t := Nat.lt_of_mul_lt_mul_left (a := p) (by omega)
    have : p * (q + 1) ≤ p * t := Nat.mul_le_mul_left p (by omega)
    rw [Nat.mul_add, Nat.mul_one] at this
    omega
  · rw [if_neg hpar]
    exact ⟨hm0d, by omega, hm0ge, fun m hmd hmo hmge => hm0min m hmd hmge⟩

theorem odd_cofactor {p a : Nat} (hodd : p % 2 = 1) (hdvd : p ∣ a) (ha : a % 2 = 1) :
    ∃ t, a = p * t ∧ t % 2 = 1 := by
  obtain ⟨t, rfl⟩ := hdvd
  refine ⟨t, rfl, ?_⟩
  rcases Nat.mod_two_eq_zero_or_one t with ht | ht
  · obtain ⟨u, rfl⟩ : 2 ∣ t := Nat.dvd_iff_mod_eq_zero.mpr ht
    rw [Nat.mul_left_comm, Nat.mul_mod_right] at ha
    cases ha
  · exact ht

theorem odd_mult_gap {p a b : Nat} (hodd : p % 2 = 1) (hda : p ∣ a) (hoa : a % 2 = 1)
    (hdb : p ∣ b) (hob : b % 2 = 1) (hab : a < b) : a + 2 * p ≤ b := by
  obtain ⟨s, rfl, hs⟩ := odd_cofactor hodd hda hoa
  obtain ⟨t, rfl, ht⟩ := odd_cofactor hodd hdb hob
  have hst : s < t := Nat.lt_of_mul_lt_mul_left hab
  have hst2 : s + 2 ≤ t := by omega
  have : p * (s + 2) ≤ p * t := Nat.mul_le_mul_left p hst2
  rw [Nat.mul_add] at this
  omega

theorem carried_cursor_eq (p lo1 hi1 : Nat) (hp : 0 < p) (hodd : p % 2 = 1)
    (h1 : lo1 ≤ hi1) :
    loopExit (firstOddMultipleGe lo1 p) hi1 (p * 2) = firstOddMultipleGe hi1 p := by
  obtain ⟨hd0, ho0, hge0, hmin0⟩ := firstOddMultipleGe_spec lo1 p hp hodd
  obtain ⟨hd1, ho1, hge1, hmin1⟩ := firstOddMultipleGe_spec hi1 p hp hodd
  have hstep : 0 < p * 2 := by omega
  obtain ⟨k, hk⟩ : ∃ k, loopExit (firstOddMultipleGe lo1 p) hi1 (p * 2)
      = firstOddMultipleGe lo1 p + p * 2 * k := ⟨loopCount _ _ _, rfl⟩
  have hcd : p ∣ loopExit (firstOddMultipleGe lo1 p) hi1 (p * 2) := by
    rw [hk]
    exact Nat.dvd_add hd0 ⟨2 * k, by ring⟩
  have hco : loopExit (firstOddMultipleGe lo1 p) hi1 (p * 2) % 2 = 1 := by
    have h2 : p * 2 * k = 2 * (p * k) := by ring
    rw [hk, h2]
    omega
  have hcge : hi1 ≤ loopExit (firstOddMultipleGe lo1 p) hi1 (p * 2) := loopExit_ge hstep
  have hmc : firstOddMultipleGe hi1 p ≤ loopExit (firstOddMultipleGe lo1 p) hi1 (p * 2) :=
    hmin1 _ hcd hco hcge
  rcases Nat.lt_or_ge (firstOddMultipleGe lo1 p) hi1 with hlt | hge
  · have hclt := loopExit_lt hstep hlt
    have hnot : ¬ firstOddMultipleGe hi1 p < loopExit (firstOddMultipleGe lo1 p) hi1 (p * 2) := by
      intro hlt2
      have hgap := odd_mult_gap hodd hd1 ho1 hcd hco hlt2
      omega
    omega
  · have hc0 : loopExit (firstOddMultipleGe lo1 p) hi1 (p * 2) = firstOddMultipleGe lo1 p :=
      loopExit_of_ge hge
    have hj0m : firstOddMultipleGe lo1 p ≤ firstOddMultipleGe hi1 p :=
      hmin0 _ hd1 ho1 (le_trans h1 hge1)
    omega

/-- C4: for an odd base prime `p` and adjacent segments `[lo1, hi1)` and
`[hi1, hi2)`, striking with the cursor carried out of the first segment
(fast-forwarded by 2p jumps if it were behind the new lower bound, exactly as
the code guards it) clears the same composite positions, in the same order,
as reseeding from scratch with the division-based
first-odd-multiple-at-least-lo computation. -/
theorem cursor_carry_equiv (p lo1 hi1 hi2 : Nat) (hp : Nat.Prime p) (hodd : p % 2 = 1)
    (h1 : lo1 ≤ hi1) :
    strikeD (orOne hi1) hi2 (p * 2)
        (if (strikeD (orOne lo1) hi1 (p * 2) (firstOddMultipleGe lo1 p)).2 < hi1
          then fastForwardD (p * 2) hi1 (strikeD (orOne lo1) hi1 (p * 2) (firstOddMultipleGe lo1 p)).2
          else (strikeD (orOne lo1) hi1 (p * 2) (firstOddMultipleGe lo1 p)).2)
      = strikeD (orOne hi1) hi2 (p * 2) (firstOddMultipleGe hi1 p) := by
  have hp0 : 0 < p := hp.pos
  have hcar : (strikeD (orOne lo1) hi1 (p * 2) (firstOddMultipleGe lo1 p)).2
      = firstOddMultipleGe hi1 p := by
    rw [strikeD_snd]
    exact carried_cursor_eq p lo1 hi1 hp0 hodd h1
  have hge : ¬ (strikeD (orOne lo1) hi1 (p * 2) (firstOddMultipleGe lo1 p)).2 < hi1 := by
    rw [hcar]
    have := (firstOddMultipleGe_spec hi1 p hp0 hodd).2.2.1
    omega
  rw [if_neg hge, hcar]

/-- Witness for C4: p = 3 over the adjacent segments [11, 25) and [25, 39). -/
theorem cursor_carry_equiv_witness :
    Nat.Prime 3 ∧ 3 % 2 = 1 ∧ 11 ≤ 25 ∧
      strikeD (orOne 25) 39 (3 * 2)
          (if (strikeD (orOne 11) 25 (3 * 2) (firstOddMultipleGe 11 3)).2 < 25
            then fastForwardD (3 * 2) 25 (strikeD (orOne 11) 25 (3 * 2) (firstOddMultipleGe 11 3)).2
            else (strikeD (orOne 11) 25 (3 * 2) (firstOddMultipleGe 11 3)).2)
        = strikeD (orOne 25) 39 (3 * 2) (firstOddMultipleGe 25 3) :=
  ⟨by norm_num, by decide, by decide,
   cursor_carry_equiv 3 11 25 39 (by norm_num) (by decide) (by decide)⟩

/-! ## Popcount counting equivalence (C6) -/

theorem popcount64_zero : popcount64 0 = 0 := by
  simp [popcount64]

theorem foldl_add_init (l : List Nat) (a : Nat) :
    l.foldl (· + ·) a = a + l.foldl (· + ·) 0 := by
  induction l generalizing a with
  | nil => simp
  | cons b l ih =>
    simp only [List.foldl_cons, Nat.zero_add]
    rw [ih (a + b), ih b]
    omega

theorem countWords_nil (n : Nat) : countWords [] n = 0 := by
  simp only [countWords, List.getD_nil]
  have hfold : ∀ l : List Nat, (l.map fun _ => popcount64 0).foldl (· + ·) 0 = 0 := by
    intro l
    induction l with
    | nil => rfl
    | cons a l ih => simpa [popcount64_zero] using ih
  rw [hfold]
  have hz : (0 &&& (2 ^ (n % 64) - 1)) = 0 := Nat.zero_and _
  rw [hz, popcount64_zero]
  split <;> rfl

theorem countBitsNaive_nil (n : Nat) : countBitsNaive [] n = 0 := by
  simp [countBitsNaive]

theorem filter_range_and_lt (f : Nat → Bool) (n N : Nat) (h : n ≤ N) :
    ((List.range N).filter fun i => f i && decide (i < n)).length
      = ((List.range n).filter f).length := by
  have hsplit : List.range N = List.range n ++ List.range' n (N - n) := by
    have happ := List.range'_append_1 0 n (N - n)
    rw [Nat.zero_add] at happ
    have h2 : N - n + n = N := by omega
    rw [h2] at happ
    rw [List.range_eq_range', ← happ, List.range_eq_range']
  rw [hsplit, List.filter_append, List.length_append]
  have hnil : (List.range' n (N - n)).filter (fun i => f i && decide (i < n)) = [] := by
    rw [List.filter_eq_nil_iff]
    intro a ha
    rw [List.mem_range'] at ha
    obtain ⟨i, _, rfl⟩ := ha
    simp only [Bool.and_eq_true, decide_eq_true_eq, not_and]
    intro _
    omega
  rw [hnil]
  have hcong : (List.range n).filter (fun i => f i && decide (i < n))
      = (List.range n).filter f := by
    apply List.filter_congr
    intro x hx
    rw [List.mem_range] at hx
    simp [hx]
  rw [hcong]
  rfl

theorem countWords_le64 (ws : List Nat) (n : Nat) (h : n ≤ 64) :
    countWords ws n = countBitsNaive ws n := by
  simp only [countWords, countBitsNaive]
  rcases Nat.lt_or_ge n 64 with h64 | h64
  · have hfw : n / 64 = 0 := Nat.div_eq_of_lt h64
    have hr : n % 64 = n := Nat.mod_eq_of_lt h64
    rw [hfw, hr]
    simp only [List.range_zero, List.map_nil, List.foldl_nil]
    by_cases hn0 : n > 0
    · rw [if_pos hn0]
      unfold popcount64
      have hc : (List.range 64).filter (fun i => (ws.getD 0 0 &&& (2 ^ n - 1)).testBit i)
          = (List.range 64).filter fun i => (ws.getD 0 0).testBit i && decide (i < n) :=
        List.filter_congr fun x _ => by
          rw [Nat.testBit_and, Nat.testBit_two_pow_sub_one]
      rw [hc, filter_range_and_lt _ n 64 (by omega)]
      have hcong2 : (List.range n).filter (fun i => (ws.getD 0 0).testBit i)
          = (List.range n).filter fun i => (ws.getD (i / 64) 0).testBit (i % 64) := by
        apply List.filter_congr
        intro x hx
        rw [List.mem_range] at hx
        rw [Nat.div_eq_of_lt (by omega), Nat.mod_eq_of_lt (by omega)]
      rw [hcong2]
      omega
    · rw [if_neg hn0]
      have hn : n = 0 := by omega
      subst hn
      rfl
  · have hn : n = 64 := by omega
    subst hn
    have hr : ¬ (64 % 64 > 0) := by norm_num
    rw [if_neg hr]
    have hone : List.range (64 / 64) = [0] := rfl
    rw [hone]
    simp only [List.map_cons, List.map_nil, List.foldl_cons, List.foldl_nil, Nat.zero_add]
    unfold popcount64
    congr 1

theorem countWords_cons_shift (w : Nat) (ws : List Nat) (m : Nat) :
    countWords (w :: ws) (64 + m) = popcount64 w + countWords ws m := by
  simp only [countWords]
  have hfw : (64 + m) / 64 = m / 64 + 1 := by
    rw [Nat.add_comm 64 m]
    exact Nat.add_div_right m (by norm_num)
  have hr : (64 + m) % 64 = m % 64 := by omega
  rw [hfw, hr]
  rw [List.range_succ_eq_map]
  simp only [List.map_cons, List.getD_cons_zero, List.map_map, List.foldl_cons, Nat.zero_add]
  have hmap : (List.range (m / 64)).map ((fun i => popcount64 (List.getD (w :: ws) i 0)) ∘
      Nat.succ) = (List.range (m / 64)).map fun i => popcount64 (List.getD ws i 0) := by
    apply List.map_congr_left
    intro i _
    simp [Function.comp, List.getD_cons_succ]
  rw [hmap, foldl_add_init]
  have hgd : List.getD (w :: ws) (m / 64 + 1) 0 = List.getD ws (m / 64) 0 :=
    List.getD_cons_succ
  rw [hgd]
  by_cases hm : m % 64 > 0
  · rw [if_pos hm, if_pos hm]
    omega
  · rw [if_neg hm, if_neg hm]

theorem countBitsNaive_cons_shift (w : Nat) (ws : List Nat) (m : Nat) :
    countBitsNaive (w :: ws) (64 + m) = popcount64 w + countBitsNaive ws m := by
  simp only [countBitsNaive, popcount64]
  rw [List.range_add, List.filter_append, List.length_append]
  have h1 : (List.filter (fun i => ((w :: ws).getD (i / 64) 0).testBit (i % 64))
        (List.range 64)).length
      = (List.filter (fun i => w.testBit i) (List.range 64)).length := by
    congr 1
  have h2 : (List.filter (fun i => ((w :: ws).getD (i / 64) 0).testBit (i % 64))
        ((List.range m).map fun x => 64 + x)).length
      = (List.filter (fun i => (ws.getD (i / 64) 0).testBit (i % 64)) (List.range m)).length := by
    rw [List.filter_map, List.length_map]
    congr 1
    apply List.filter_congr
    intro x _
    show ((w :: ws).getD ((64 + x) / 64) 0).testBit ((64 + x) % 64)
        = (ws.getD (x / 64) 0).testBit (x % 64)
    have hd : (64 + x) / 64 = x / 64 + 1 := by
      rw [Nat.add_comm 64 x]
      exact Nat.add_div_right x (by norm_num)
    have hm2 : (64 + x) % 64 = x % 64 := by omega
    rw [hd, hm2, List.getD_cons_succ]
  rw [h1, h2]

/-- C6: for every word buffer and every element count `n` at most the bit
capacity of the buffer, the word-at-a-time popcount routine (full 64-bit
words, then the final partial word under the mask `(1 << (n % 64)) - 1`)
returns exactly the number of set bits among the first `n` bit positions,
i.e. agrees with the bit-by-bit test-and-count loop. -/
theorem popcount_count_equiv (ws : List Nat) (n : Nat) (h : n ≤ 64 * ws.length) :
    countWords ws n = countBitsNaive ws n := by
  induction ws generalizing n with
  | nil =>
    rw [countWords_nil, countBitsNaive_nil]
  | cons w ws ih =>
    rcases Nat.le_total n 64 with h64 | h64
    · exact countWords_le64 _ _ h64
    · have hn : n = 64 + (n - 64) := by omega
      rw [hn, countWords_cons_shift, countBitsNaive_cons_shift, ih (n - 64)]
      simp only [List.length_cons] at h
      omega

/-- Witness for C6 on the two-word buffer [13, 7] with n = 70. -/
theorem popcount_count_equiv_witness :
    70 ≤ 64 * ([13, 7] : List Nat).length ∧ countWords [13, 7] 70 = countBitsNaive [13, 7] 70 :=
  ⟨by decide, popcount_count_equiv [13, 7] 70 (by decide)⟩

/-! ## The first segment of a run marks the base primes composite (C1) -/

theorem foldl_guardedClear_false (lo_odd : Nat) (js : List Nat) (f : Nat → Bool) (x : Nat)
    (hx : f x = false) :
    js.foldl (fun g v => if (v - lo_odd) / 2 < SEG_BITS then clearAt g ((v - lo_odd) / 2) else g)
      f x = false := by
  induction js generalizing f with
  | nil => exact hx
  | cons a js ih =>
    simp only [List.foldl_cons]
    apply ih
    by_cases hg : (a - lo_odd) / 2 < SEG_BITS
    · rw [if_pos hg, clearAt_apply]
      split
      · rfl
      · exact hx
    · rw [if_neg hg]
      exact hx

theorem foldl_guardedClear_clears (lo_odd v : Nat) (hg : (v - lo_odd) / 2 < SEG_BITS) :
    ∀ (js : List Nat) (f : Nat → Bool), v ∈ js →
      js.foldl (fun g u => if (u - lo_odd) / 2 < SEG_BITS then clearAt g ((u - lo_odd) / 2) else g)
        f ((v - lo_odd) / 2) = false := by
  intro js
  induction js with
  | nil =>
    intro f hv
    cases hv
  | cons a js ih =>
    intro f hv
    simp only [List.foldl_cons]
    by_cases hav : a = v
    · subst hav
      apply foldl_guardedClear_false
      rw [if_pos hg, clearAt_apply, if_pos rfl]
    · rcases List.mem_cons.mp hv with h | h
      · exact absurd h.symm hav
      · exact ih _ h

theorem strikeSegC_fst (lo_odd endv p j : Nat) (f : Nat → Bool) :
    (strikeSegC lo_odd endv p j f).1 = (loopIdxs j endv (p * 2)).foldl
      (fun g v => if (v - lo_odd) / 2 < SEG_BITS then clearAt g ((v - lo_odd) / 2) else g) f := rfl

theorem strikeSegC_fst_false (lo_odd endv p j : Nat) (f : Nat → Bool) (x : Nat)
    (hx : f x = false) : (strikeSegC lo_odd endv p j f).1 x = false := by
  rw [strikeSegC_fst]
  exact foldl_guardedClear_false _ _ _ _ hx

theorem strikeAllC_cons (lo_odd endv : Nat) (pj : Nat × Nat) (pjs : List (Nat × Nat))
    (f : Nat → Bool) :
    strikeAllC lo_odd endv (pj :: pjs) f = strikeAllC lo_odd endv pjs
      ((strikeSegC lo_odd endv pj.1
        (if pj.2 < lo_odd then reseedCursor lo_odd pj.1 else pj.2) f).1) := rfl

theorem strikeAllC_false (lo_odd endv : Nat) (pjs : List (Nat × Nat)) (f : Nat → Bool) (x : Nat)
    (hx : f x = false) : strikeAllC lo_odd endv pjs f x = false := by
  induction pjs generalizing f with
  | nil => exact hx
  | cons pj pjs ih =>
    rw [strikeAllC_cons]
    exact ih _ (strikeSegC_fst_false _ _ _ _ _ _ hx)

set_option maxRecDepth 100000 in
theorem workerFirstSeg_primes :
    (ensure (ensure initBasePrimes 100) (min U32MAX (Nat.sqrt (3 + SEG_SPAN - 1)))).primes
      = primesListTo 512 := by
  have hneed : min U32MAX (Nat.sqrt (3 + SEG_SPAN - 1)) = 512 := by
    have hv : 3 + SEG_SPAN - 1 = 262146 := by decide
    have hs : Nat.sqrt (3 + SEG_SPAN - 1) = 512 := by
      rw [hv]
      exact (Nat.eq_sqrt.mpr (by norm_num)).symm
    rw [hs]
    decide
  rw [hneed]
  have hs1 : (ensure initBasePrimes 100).sieved_to = 100 := by
    rw [ensure_of_gt (by decide)]
    show growthTarget initBasePrimes 100 = 100
    decide
  have h1 : (ensure initBasePrimes 100).primes
      = primesListTo (ensure initBasePrimes 100).sieved_to :=
    ensure_primes_eq _ _ (by decide)
  have h2 := ensure_primes_eq (ensure initBasePrimes 100) 512 h1
  have hs2 : (ensure (ensure initBasePrimes 100) 512).sieved_to = 512 := by
    rw [ensure_of_gt (by rw [hs1]; decide)]
    show growthTarget (ensure initBasePrimes 100) 512 = 512
    unfold growthTarget
    rw [hs1]
    decide
  rw [h2, hs2]

set_option maxRecDepth 100000 in
theorem primesListTo_512_head : ∃ rest, primesListTo 512 = 2 :: 3 :: rest := by
  have htake : (primesListTo 512).take 2 = [2, 3] := by decide
  refine ⟨(primesListTo 512).drop 2, ?_⟩
  conv_lhs => rw [← List.take_append_drop 2 (primesListTo 512)]
  rw [htake]
  rfl

/-- C1, code_bug evidence: in the very first segment of a run (chunk 0 of
the canonical allocator, values [3, 3 + SEG_SPAN)), the worker clears the
flag bit of the value 3 itself.  The strike cursor of every base prime is
seeded at its first odd multiple at or above the segment base with no
p*p floor, so the prime 3 (cursor seeded at 3) strikes its own position;
3 is thereby classified composite and excluded from the popcount, while
trial division classifies 3 as prime.  The same happens to every base
prime inside the first segment (3, 5, ..., 509). -/
theorem worker_marks_prime3_composite :
    workerFirstSegFlags ((3 - 3) / 2) = false ∧ trialDivisionIsPrime 3 = true := by
  refine ⟨?_, by decide⟩
  show strikeAllC (orOne 3) (orOne 3 + SEG_SPAN)
      (if (ensure (ensure initBasePrimes 100)
            (min U32MAX (Nat.sqrt (3 + SEG_SPAN - 1)))).primes.headD 0 = 2
        then ((ensure (ensure initBasePrimes 100)
            (min U32MAX (Nat.sqrt (3 + SEG_SPAN - 1)))).primes.map
              fun p => (p, nextMultInit (orOne 3) p)).drop 1
        else (ensure (ensure initBasePrimes 100)
            (min U32MAX (Nat.sqrt (3 + SEG_SPAN - 1)))).primes.map
              fun p => (p, nextMultInit (orOne 3) p))
      (fun _ => true) ((3 - 3) / 2) = false
  rw [workerFirstSeg_primes]
  obtain ⟨rest, hr⟩ := primesListTo_512_head
  rw [hr]
  simp only [List.headD_cons, List.map_cons, List.drop_succ_cons, List.drop_zero, if_pos]
  have hseed : nextMultInit (orOne 3) 3 = 3 := by decide
  rw [hseed, strikeAllC_cons]
  apply strikeAllC_false
  show (strikeSegC (orOne 3) (orOne 3 + SEG_SPAN) 3
      (if (3 : Nat) < orOne 3 then reseedCursor (orOne 3) 3 else 3) (fun _ => true)).1
      ((3 - 3) / 2) = false
  rw [if_neg (by decide), strikeSegC_fst]
  apply foldl_guardedClear_clears (orOne 3) 3 (by decide)
  rw [mem_loopIdxs (by decide)]
  refine ⟨by decide, by decide, by decide⟩

/-! ## The range [2, 100) scenario (C5) -/

set_option maxRecDepth 100000 in
/-- C5, code_bug evidence: sieve_segment of primes_quad_core.cpp applied to
the range [2, 100) with base primes {2, 3, 5, 7} (the table complete up to
sqrt 99 = 9) reports 24 primes, not 25: its even-elimination mask for the
prime 2 also clears position 0, the value 2 itself, so 2 is reported
composite (trial division says prime); the largest surviving value is 97 as
claimed.  The generic SegmentedSieve::sieve_segment (inclusive bounds, with
the p*p start floor) applied to the same range does produce exactly the 25
primes up to 99, with count 25 and largest 97. -/
theorem sieve100_quadcore_drops_two :
    countWords (sieveSegQC 2 100 [2, 3, 5, 7]) 98 = 24
      ∧ (survivorsQC 2 100 (sieveSegQC 2 100 [2, 3, 5, 7])).contains 2 = false
      ∧ (survivorsQC 2 100 (sieveSegQC 2 100 [2, 3, 5, 7])).getLastD 0 = 97
      ∧ trialDivisionIsPrime 2 = true
      ∧ sieveSegmentGeneric 2 99 [2, 3, 5, 7] = primesListTo 99
      ∧ (sieveSegmentGeneric 2 99 [2, 3, 5, 7]).length = 25
      ∧ (sieveSegmentGeneric 2 99 [2, 3, 5, 7]).getLastD 0 = 97 := by
  refine ⟨by decide, by decide, by decide, by decide, by decide, by decide, by decide⟩
